import Mathlib

/-!
Verification of the settings synchronization core of
`call-of-duty-settings-importer` (src/main.rs).

The embedding models file contents as `String`s and performs all character
level inspection through `List Char`, matching the Rust string primitives
used by the source:

* `str::lines` / `BufRead::lines` (split on LF, strip a CR that precedes an
  LF, drop a final empty segment) is `rustLines`;
* `str::split_once('=')` is `splitOnceEqChars`;
* `str::trim` / `str::trim_start` are `trimChars` / `trimLeftChars`;
* `str::starts_with` on a string pattern is `List.isPrefixOf` on the
  character lists, `str::contains` on a string pattern is `subOccurs`;
* `HashMap` values are modelled as association lists whose `insert`
  replaces the entry of an existing key in place (`insertKV`).

Filesystem effects are made explicit: a readable file is a name paired with
its contents, a fallible read is an `Option String`, a fallible copy result
is `Option String` (an error message when the copy fails).
-/

/-- Leading-whitespace strip, as `str::trim_start` on the character list. -/
def trimLeftChars : List Char → List Char
  | [] => []
  | c :: t => if c.isWhitespace then trimLeftChars t else c :: t

/-- Whitespace strip at both ends, as `str::trim`. -/
def trimChars (cs : List Char) : List Char :=
  (trimLeftChars (trimLeftChars cs).reverse).reverse

/-- `sub` occurs as a contiguous run inside the second list;
this is `str::contains` with a string pattern. -/
def subOccurs (sub : List Char) : List Char → Bool
  | [] => sub.isEmpty
  | c :: t => sub.isPrefixOf (c :: t) || subOccurs sub t

/-- `str::split_once('=')`: split at the first `=`, yielding the characters
strictly before and strictly after it; `none` when no `=` occurs. -/
def splitOnceEqChars : List Char → Option (List Char × List Char)
  | [] => none
  | c :: t =>
    if c = '=' then some ([], t)
    else (splitOnceEqChars t).map (fun p => (c :: p.1, p.2))

/-- Strip one trailing CR, used on each segment that was terminated by LF. -/
def stripCrL (l : List Char) : List Char :=
  if l.getLast? = some '\r' then l.dropLast else l

/-- Split into LF-terminated segments, accumulating the current segment in
reverse; every segment closed by an LF has a trailing CR removed, the final
segment (after the last LF) is kept verbatim. -/
def linesAux : List Char → List Char → List (List Char)
  | cur, [] => [cur.reverse]
  | cur, c :: t =>
    if c = '\n' then stripCrL cur.reverse :: linesAux [] t
    else linesAux (c :: cur) t

/-- Drop the final segment when it is empty (the input was empty or ended
with an LF) — `str::lines` yields no trailing empty line. -/
def dropFinalEmpty (segs : List (List Char)) : List (List Char) :=
  if segs.getLast? = some [] then segs.dropLast else segs

/-- `str::lines` (also `BufRead::lines` on valid UTF-8) on character lists. -/
def rustLinesChars (cs : List Char) : List (List Char) :=
  dropFinalEmpty (linesAux [] cs)

/-- `content.lines()` as a list of line strings. -/
def rustLines (s : String) : List String :=
  (rustLinesChars s.toList).map List.asString

/-- `HashMap::insert` on the association-list model: replace the entry of an
existing key in place, otherwise add the new entry at the end. -/
def insertKV {α : Type} : List (String × α) → String → α → List (String × α)
  | [], k, v => [(k, v)]
  | p :: rest, k, v => if p.1 = k then (k, v) :: rest else p :: insertKV rest k v

/-- One line of `parse_cod_settings` (src/main.rs lines 235-241): split on the
first `=`; no `=` means the line is skipped; otherwise both sides are trimmed
and inserted into the map. -/
def parseStep (m : List (String × String)) (l : String) : List (String × String) :=
  match splitOnceEqChars l.toList with
  | none => m
  | some (k, v) => insertKV m (trimChars k).asString (trimChars v).asString

/-- Fold of `parseStep` over a line list, starting from the empty map. -/
def parseLinesList (ls : List String) : List (String × String) :=
  ls.foldl parseStep []

/-- `parse_cod_settings` (src/main.rs lines 231-243) on the contents of a file. -/
def parse_cod_settings (content : String) : List (String × String) :=
  parseLinesList (rustLines content)

/-- `k.to_lowercase().contains(cat)` (src/main.rs line 257): the key is
lower-cased, the category is searched for as a substring. -/
def containsLower (k cat : String) : Bool :=
  subOccurs cat.toList (k.toList.map Char.toLower)

/-- The per-key predicate of the export filter (src/main.rs line 257). -/
def keyMatchesFilters (filters : List String) (k : String) : Bool :=
  filters.any (fun f => containsLower k f)

/-- The filter step of `export_to_json` (src/main.rs lines 255-259). -/
def filterSettings (m : List (String × String)) (filters : List String) :
    List (String × String) :=
  m.filter (fun kv => keyMatchesFilters filters kv.1)

/-- One file of the export loop (src/main.rs lines 248-263): a file whose
read fails (`Option.none`) is skipped, otherwise its parse is filtered and
inserted under the basename of the file. -/
def exportStep (filters : List String)
    (acc : List (String × List (String × String))) (f : String × Option String) :
    List (String × List (String × String)) :=
  match f.2 with
  | some content => insertKV acc f.1 (filterSettings (parse_cod_settings content) filters)
  | none => acc

/-- The document built by `export_to_json` (src/main.rs lines 245-267):
basename to filtered settings map. -/
def export_to_json (files : List (String × Option String)) (filters : List String) :
    List (String × List (String × String)) :=
  files.foldl (exportStep filters) []

/-- The whole export operation with the final write made explicit: the only
fallible step after the per-file reads is the write of the document
(src/main.rs line 265), so the result is an error exactly when the write
fails. -/
def exportRun (files : List (String × Option String)) (filters : List String)
    (writeOk : Bool) : Except Unit (List (String × List (String × String))) :=
  if writeOk then Except.ok (export_to_json files filters) else Except.error ()

/-- `format!("{} = {}", k, v)` (src/main.rs lines 290 and 297). -/
def canonLine (k v : String) : String := k ++ " = " ++ v

/-- `line.trim_start().starts_with(k) && line.contains('=')`
(src/main.rs line 289). -/
def matchLine (k l : String) : Bool :=
  k.toList.isPrefixOf (trimLeftChars l.toList) && l.toList.contains '='

/-- The inner line scan of the import loop (src/main.rs lines 288-295):
replace the first matching line with the canonical text, or report that no
line matched. -/
def replaceFirst (k v : String) : List String → Option (List String)
  | [] => none
  | l :: ls =>
    if matchLine k l then some (canonLine k v :: ls)
    else (replaceFirst k v ls).map (fun r => l :: r)

/-- The per-key effect of the import loop on the line list alone
(src/main.rs lines 286-300): replace the first match, else append. -/
def applyKV (ls : List String) (kv : String × String) : List String :=
  match replaceFirst kv.1 kv.2 ls with
  | some ls2 => ls2
  | none => ls ++ [canonLine kv.1 kv.2]

/-- The merge of a whole document section into a line list. -/
def mergeKeys (sec : List (String × String)) (ls : List String) : List String :=
  sec.foldl applyKV ls

/-- The per-key step with the `updated` flag (src/main.rs lines 286-300):
both the replace branch and the append branch set the flag. -/
def mergeStep (st : List String × Bool) (kv : String × String) :
    List String × Bool :=
  match replaceFirst kv.1 kv.2 st.1 with
  | some ls2 => (ls2, true)
  | none => (st.1 ++ [canonLine kv.1 kv.2], true)

/-- The key loop of the import with the `updated` flag, started at `false`
(src/main.rs line 285). -/
def mergeRun (sec : List (String × String)) (ls : List String) :
    List String × Bool :=
  sec.foldl mergeStep (ls, false)

/-- One file of `import_from_json` (src/main.rs lines 280-304): split the
contents into lines, run the key loop, and rewrite the file as the lines
joined by LF when the flag is set, leaving the contents alone otherwise. -/
def fileImport (sec : List (String × String)) (content : String) : String :=
  let r := mergeRun sec (rustLines content)
  if r.2 then String.intercalate "\n" r.1 else content

/-- `import_from_json` (src/main.rs lines 269-308) over an explicit
filesystem: `doc = none` models a document that fails to deserialize, which
aborts before any file is touched; a file whose basename has no section is
left unchanged. The `Bool` is overall success. -/
def runImport (doc : Option (List (String × List (String × String))))
    (fsys : List (String × String)) : Bool × List (String × String) :=
  match doc with
  | none => (false, fsys)
  | some d =>
    (true, fsys.map (fun f =>
      match List.lookup f.1 d with
      | none => f
      | some sec => (f.1, fileImport sec f.2)))

/-- One file of the backup loop (src/main.rs lines 129-148): `copyRes` gives
`none` when `fs::copy` succeeds and an error message when it fails; a
success bumps the counter, a failure appends a (filename, message) entry. -/
def backupStep (copyRes : String → Option String)
    (acc : Nat × List (String × String)) (f : String × String) :
    Nat × List (String × String) :=
  match copyRes f.1 with
  | none => (acc.1 + 1, acc.2)
  | some e => (acc.1, acc.2 ++ [(f.1, e)])

/-- The backup operation (src/main.rs lines 121-161): every file is
attempted in order; `fs::copy` never mutates its source, so the filesystem
of originals is returned unchanged alongside the report. -/
def backupAll (fsys : List (String × String)) (copyRes : String → Option String) :
    (Nat × List (String × String)) × List (String × String) :=
  (fsys.foldl (backupStep copyRes) (0, []), fsys)

/-- The list of lines joined by LF when each line has the CRLF terminator,
describing the shape of a CRLF-terminated input file. -/
def crlfJoin (ls : List (List Char)) : List Char :=
  (ls.map (fun l => l ++ ['\r', '\n'])).flatten

/-! ## The inner line scan: replace the first match, else append -/

/-- `replaceFirst` replaces exactly the first line satisfying `matchLine k`
and reports `none` when no line matches. -/
theorem replaceFirst_spec (k v : String) (ls : List String) :
    replaceFirst k v ls =
      if ls.any (matchLine k) then
        some (ls.set (ls.findIdx (matchLine k)) (canonLine k v))
      else none := by
  induction ls with
  | nil => simp [replaceFirst]
  | cons l t ih =>
    cases h : matchLine k l with
    | true => simp [replaceFirst, h, List.findIdx_cons]
    | false =>
      rw [replaceFirst, if_neg (by simp [h]), ih]
      by_cases ht : t.any (matchLine k)
      · simp [ht, h, List.findIdx_cons]
      · simp [ht, h]

/-- The line component of the flagged per-key step is `applyKV`. -/
theorem mergeStep_fst (st : List String × Bool) (kv : String × String) :
    (mergeStep st kv).1 = applyKV st.1 kv := by
  cases h : replaceFirst kv.1 kv.2 st.1 <;> simp [mergeStep, applyKV, h]

/-- Every per-key step sets the `updated` flag, in the replace branch and in
the append branch alike. -/
theorem mergeStep_snd (st : List String × Bool) (kv : String × String) :
    (mergeStep st kv).2 = true := by
  cases h : replaceFirst kv.1 kv.2 st.1 <;> simp [mergeStep, h]

/-- The flagged key loop computes the same lines as the pure merge. -/
theorem foldl_mergeStep_fst (sec : List (String × String)) :
    ∀ (ls : List String) (b : Bool),
      (sec.foldl mergeStep (ls, b)).1 = mergeKeys sec ls := by
  induction sec with
  | nil => intro ls b; rfl
  | cons kv rest ih =>
    intro ls b
    have h : mergeStep (ls, b) kv = (applyKV ls kv, true) := by
      cases hr : replaceFirst kv.1 kv.2 ls <;> simp [mergeStep, applyKV, hr]
    rw [List.foldl_cons, h, ih]
    rfl

/-- After the key loop the `updated` flag is the initial flag or-ed with the
section being nonempty: a nonempty section always marks the file updated. -/
theorem foldl_mergeStep_snd (sec : List (String × String)) :
    ∀ st : List String × Bool,
      (sec.foldl mergeStep st).2 = (st.2 || !sec.isEmpty) := by
  induction sec with
  | nil => intro st; simp
  | cons kv rest ih =>
    intro st
    rw [List.foldl_cons, ih]
    simp [mergeStep_snd]

/-- `fileImport` leaves the contents alone exactly when the section is
empty; any nonempty section rewrites the file as the merged lines joined by
LF, even when every replacement wrote identical text. -/
theorem fileImport_eq (sec : List (String × String)) (content : String) :
    fileImport sec content =
      if sec.isEmpty then content
      else String.intercalate "\n" (mergeKeys sec (rustLines content)) := by
  have h2 := foldl_mergeStep_snd sec (rustLines content, false)
  have h1 := foldl_mergeStep_fst sec (rustLines content) false
  cases hsec : sec.isEmpty with
  | false =>
    rw [hsec] at h2
    simp only [Bool.false_or, Bool.not_false] at h2
    rw [fileImport, mergeRun]
    simp [h2, h1, hsec]
  | true =>
    rw [hsec] at h2
    simp only [Bool.false_or, Bool.not_true] at h2
    rw [fileImport, mergeRun]
    simp [h2, hsec]

/-- C1: for each (key, value) pair the import scans the line list and
replaces the first line that, after stripping leading whitespace, begins
with the key and contains an equals sign, writing the canonical
`key = value` text there; when no line matches, one canonical line is
appended at the end. The match is a pure prefix test, so the key `fov`
replaces a line holding the longer key `fovscale`. -/
theorem c1_import_replaces_first_prefix_match_or_appends :
    (∀ (k v : String) (ls : List String),
        applyKV ls (k, v) =
          if ls.any (matchLine k) then
            ls.set (ls.findIdx (matchLine k)) (canonLine k v)
          else ls ++ [canonLine k v])
    ∧ (∀ k l : String,
        matchLine k l =
          (k.toList.isPrefixOf (trimLeftChars l.toList) && l.toList.contains '='))
    ∧ applyKV ["fovscale = 2"] ("fov", "1") = ["fov = 1"] := by
  refine ⟨?_, fun k l => rfl, by decide⟩
  intro k v ls
  by_cases h : ls.any (matchLine k) <;> simp [applyKV, replaceFirst_spec, h]

/-- C2 counterexample: the section assigns `fov` the value `1` and the file
already holds exactly the canonical line `fov = 1`, so no key changes the content
of any line; the claim says the file is left completely untouched, yet
the import rewrites it and drops the trailing newline. -/
theorem c2_counterexample_canonical_file_still_rewritten :
    fileImport [("fov", "1")] "fov = 1\n" ≠ "fov = 1\n" := by decide

/-- C2 amended: the `updated` flag is set for every processed key, whether
or not the replacement changed the text of the line, so a config file is
rewritten (as the merged lines joined by LF) exactly when its matching
document section is nonempty; only an empty section — or a basename absent
from the document — leaves the file untouched. -/
theorem c2_amended_rewrite_iff_section_nonempty :
    ∀ (sec : List (String × String)) (content : String),
      fileImport sec content =
        if sec.isEmpty then content
        else String.intercalate "\n" (mergeKeys sec (rustLines content)) :=
  fun sec content => fileImport_eq sec content

/-! ## Idempotence analysis of the merge -/

/-- The first line matching `k` is exactly the canonical `k = v` line. -/
def firstMatchIs (k v : String) (ls : List String) : Prop :=
  ls.find? (matchLine k) = some (canonLine k v)

/-- When no line matched, no line satisfies the predicate. -/
theorem find?_eq_none_of_replaceFirst_none (k v : String) :
    ∀ ls : List String, replaceFirst k v ls = none →
      ls.find? (matchLine k) = none := by
  intro ls h
  induction ls with
  | nil => rfl
  | cons l t ih =>
    cases hm : matchLine k l with
    | true => simp [replaceFirst, hm] at h
    | false =>
      rw [replaceFirst, if_neg (by simp [hm]), Option.map_eq_none'] at h
      rw [List.find?_cons_of_neg _ (by simp [hm]), ih h]

theorem find?_append_of_some {p : String → Bool} {ls : List String} {a : String}
    (h : ls.find? p = some a) (x : List String) : (ls ++ x).find? p = some a := by
  induction ls with
  | nil => simp [List.find?] at h
  | cons l t ih =>
    cases hm : p l with
    | true => simp_all [List.find?]
    | false =>
      rw [List.find?, hm] at h
      simpa [List.find?, hm] using ih h

theorem find?_append_of_none {p : String → Bool} {ls : List String}
    (h : ls.find? p = none) (x : List String) : (ls ++ x).find? p = x.find? p := by
  induction ls with
  | nil => rfl
  | cons l t ih =>
    cases hm : p l with
    | true => simp [List.find?, hm] at h
    | false =>
      rw [List.find?, hm] at h
      simpa [List.find?, hm] using ih h

/-- When the first `k`-matching line is already the canonical line, the line
scan replaces it with identical text: the line list is unchanged. -/
theorem replaceFirst_of_firstMatchIs (k v : String) :
    ∀ ls : List String, firstMatchIs k v ls → replaceFirst k v ls = some ls := by
  intro ls h
  induction ls with
  | nil => simp [firstMatchIs, List.find?] at h
  | cons l t ih =>
    rw [firstMatchIs] at h
    cases hm : matchLine k l with
    | true =>
      rw [List.find?, hm, Option.some_inj] at h
      rw [replaceFirst, if_pos (by simp [hm]), h]
    | false =>
      rw [List.find?, hm] at h
      rw [replaceFirst, if_neg (by simp [hm]), ih h]
      rfl

theorem applyKV_of_firstMatchIs (k v : String) (ls : List String)
    (h : firstMatchIs k v ls) : applyKV ls (k, v) = ls := by
  simp [applyKV, replaceFirst_of_firstMatchIs k v ls h]

/-- Processing `(k, v)` establishes that the first `k`-matching line is the
canonical one, provided the key matches its own canonical line. -/
theorem firstMatchIs_applyKV_self (k v : String)
    (hk : matchLine k (canonLine k v) = true) :
    ∀ ls : List String, firstMatchIs k v (applyKV ls (k, v)) := by
  intro ls
  induction ls with
  | nil => simp [applyKV, replaceFirst, firstMatchIs, List.find?, hk]
  | cons l t ih =>
    cases hm : matchLine k l with
    | true =>
      rw [firstMatchIs, applyKV]
      rw [replaceFirst, if_pos (by simp [hm])]
      simp [List.find?, hk]
    | false =>
      cases hr : replaceFirst k v t with
      | none =>
        have hnone : replaceFirst k v (l :: t) = none := by
          rw [replaceFirst, if_neg (by simp [hm]), hr]; rfl
        rw [firstMatchIs, applyKV, hnone]
        have ht := find?_eq_none_of_replaceFirst_none k v t hr
        rw [List.cons_append, List.find?, hm,
          find?_append_of_none ht [canonLine k v]]
        simp [List.find?, hk]
      | some t2 =>
        have hsome : replaceFirst k v (l :: t) = some (l :: t2) := by
          rw [replaceFirst, if_neg (by simp [hm]), hr]; rfl
        have ht2 : applyKV t (k, v) = t2 := by simp [applyKV, hr]
        rw [firstMatchIs, applyKV, hsome]
        rw [ht2] at ih
        rw [firstMatchIs] at ih
        simp [List.find?, hm, ih]

/-- Processing a different key preserves the canonical first match of `k`,
provided neither key matches the canonical line of the other. -/
theorem firstMatchIs_applyKV_other (k v k2 v2 : String)
    (h1 : matchLine k2 (canonLine k v) = false)
    (h2 : matchLine k (canonLine k2 v2) = false) :
    ∀ ls : List String, firstMatchIs k v ls →
      firstMatchIs k v (applyKV ls (k2, v2)) := by
  intro ls h
  induction ls with
  | nil => simp [firstMatchIs, List.find?] at h
  | cons l t ih =>
    cases hm2 : matchLine k2 l with
    | true =>
      have hsome : replaceFirst k2 v2 (l :: t) = some (canonLine k2 v2 :: t) := by
        rw [replaceFirst, if_pos (by simp [hm2])]
      rw [firstMatchIs, applyKV, hsome]
      rw [firstMatchIs] at h
      cases hm : matchLine k l with
      | true =>
        rw [List.find?_cons_of_pos _ (by simp [hm]), Option.some_inj] at h
        rw [← h, hm2] at h1
        simp at h1
      | false =>
        rw [List.find?_cons_of_neg _ (by simp [hm])] at h
        rw [List.find?_cons_of_neg _ (by simp [h2]), h]
    | false =>
      cases hr : replaceFirst k2 v2 t with
      | none =>
        have hnone : replaceFirst k2 v2 (l :: t) = none := by
          rw [replaceFirst, if_neg (by simp [hm2]), hr]; rfl
        rw [firstMatchIs, applyKV, hnone]
        rw [firstMatchIs] at h
        exact find?_append_of_some h [canonLine k2 v2]
      | some t2 =>
        have hsome : replaceFirst k2 v2 (l :: t) = some (l :: t2) := by
          rw [replaceFirst, if_neg (by simp [hm2]), hr]; rfl
        have ht2 : applyKV t (k2, v2) = t2 := by simp [applyKV, hr]
        rw [firstMatchIs, applyKV, hsome]
        rw [firstMatchIs] at h
        cases hm : matchLine k l with
        | true =>
          rw [List.find?_cons_of_pos _ (by simp [hm])] at h
          rw [List.find?_cons_of_pos _ (by simp [hm]), h]
        | false =>
          rw [List.find?_cons_of_neg _ (by simp [hm])] at h
          have hp := ih h
          rw [ht2, firstMatchIs] at hp
          rw [List.find?_cons_of_neg _ (by simp [hm]), hp]

/-- The canonical first match of `k` survives the processing of a list of
further keys when each of them is either the same (key, value) pair or
interferes with `k` in neither direction. -/
theorem firstMatchIs_mergeKeys_preserved (k v : String) :
    ∀ (rest : List (String × String)) (ls : List String),
      firstMatchIs k v ls →
      (∀ kv ∈ rest, kv = (k, v) ∨
        (matchLine kv.1 (canonLine k v) = false
          ∧ matchLine k (canonLine kv.1 kv.2) = false)) →
      firstMatchIs k v (mergeKeys rest ls) := by
  intro rest
  induction rest with
  | nil => intro ls h _; exact h
  | cons kv2 rest2 ih =>
    intro ls h hcond
    have hstep : mergeKeys (kv2 :: rest2) ls = mergeKeys rest2 (applyKV ls kv2) := by
      simp [mergeKeys]
    rw [hstep]
    have hcond2 : ∀ kv ∈ rest2, kv = (k, v) ∨
        (matchLine kv.1 (canonLine k v) = false
          ∧ matchLine k (canonLine kv.1 kv.2) = false) :=
      fun kv hkv => hcond kv (List.mem_cons_of_mem _ hkv)
    rcases hcond kv2 (List.mem_cons_self _ _) with heq | ⟨ha, hb⟩
    · rw [heq, applyKV_of_firstMatchIs k v ls h]
      exact ih ls h hcond2
    · exact ih (applyKV ls kv2) (firstMatchIs_applyKV_other k v kv2.1 kv2.2 ha hb ls h) hcond2

/-- After merging a whole section, the first matching line of every
section key is its canonical line — assuming every key matches its own canonical line
and no two distinct section entries match the canonical line of the other. -/
theorem firstMatchIs_after_merge (sec : List (String × String)) (ls : List String)
    (H1 : ∀ kv ∈ sec, matchLine kv.1 (canonLine kv.1 kv.2) = true)
    (H2 : ∀ kv ∈ sec, ∀ kv2 ∈ sec, kv ≠ kv2 →
        matchLine kv.1 (canonLine kv2.1 kv2.2) = false) :
    ∀ kv ∈ sec, firstMatchIs kv.1 kv.2 (mergeKeys sec ls) := by
  intro kv hmem
  obtain ⟨s, t, hsec⟩ := List.append_of_mem hmem
  have hsplit : mergeKeys sec ls = mergeKeys t (applyKV (mergeKeys s ls) kv) := by
    rw [hsec]; simp [mergeKeys, List.foldl_append]
  rw [hsplit]
  apply firstMatchIs_mergeKeys_preserved
  · exact firstMatchIs_applyKV_self kv.1 kv.2 (H1 kv hmem) (mergeKeys s ls)
  · intro kv2 hkv2
    have hkv2sec : kv2 ∈ sec := by
      rw [hsec]; exact List.mem_append_right s (List.mem_cons_of_mem _ hkv2)
    by_cases he : kv2 = kv
    · left; rw [he]
    · right
      exact ⟨H2 kv2 hkv2sec kv hmem he, H2 kv hmem kv2 hkv2sec (fun hc => he hc.symm)⟩

/-- A merge over a state in which every section key already has its
canonical line as first match changes nothing. -/
theorem mergeKeys_of_all_firstMatchIs :
    ∀ (sec : List (String × String)) (ls : List String),
      (∀ kv ∈ sec, firstMatchIs kv.1 kv.2 ls) → mergeKeys sec ls = ls := by
  intro sec
  induction sec with
  | nil => intro ls _; rfl
  | cons kv rest ih =>
    intro ls h
    have h0 : applyKV ls kv = ls :=
      applyKV_of_firstMatchIs kv.1 kv.2 ls (h kv (List.mem_cons_self _ _))
    have hstep : mergeKeys (kv :: rest) ls = mergeKeys rest (applyKV ls kv) := by
      simp [mergeKeys]
    rw [hstep, h0]
    exact ih ls (fun kv2 hkv2 => h kv2 (List.mem_cons_of_mem _ hkv2))

/-- C3 counterexample: with the section entries processed in the order
`fovscale` then `fov`, the first import appends `fovscale = 2` and then the
key `fov` prefix-matches and clobbers that very line, so the second import
appends `fovscale = 2` again — the file after two imports differs from the
file after one. -/
theorem c3_counterexample_twice_differs_from_once :
    fileImport [("fovscale", "2"), ("fov", "1")]
        (fileImport [("fovscale", "2"), ("fov", "1")] "brightness = 5\n")
      ≠ fileImport [("fovscale", "2"), ("fov", "1")] "brightness = 5\n" := by
  decide

/-- The merge changes nothing on a state where every section key already
has its canonical line as first match; combined with the establishment
lemma this is idempotence of the pure merge under the no-collision
hypotheses (the amended C3 theorem at the end of the file adds the
write/re-read step on top of this). -/
theorem mergeKeys_merge_idempotent
    (sec : List (String × String)) (ls : List String)
    (H1 : ∀ kv ∈ sec, matchLine kv.1 (canonLine kv.1 kv.2) = true)
    (H2 : ∀ kv ∈ sec, ∀ kv2 ∈ sec, kv ≠ kv2 →
        matchLine kv.1 (canonLine kv2.1 kv2.2) = false) :
    mergeKeys sec (mergeKeys sec ls) = mergeKeys sec ls :=
  mergeKeys_of_all_firstMatchIs sec (mergeKeys sec ls)
    (firstMatchIs_after_merge sec ls H1 H2)

/-! ## Round trip, parsing and filtering -/

/-- C4: exporting a config file holding `fov_scale`, `brightness` and
`unrelated_key` under the categories `fov` and `brightness`, then importing
the resulting document into a copy of the file whose `fov_scale` and
`brightness` values were changed, restores both keys to the exported values
and leaves the key and the value on the `unrelated_key` line unchanged. -/
theorem c4_export_import_round_trip :
    runImport
        (some (export_to_json
          [("g.txt0", some "fov_scale = 1.0\nbrightness = 5\nunrelated_key = keep")]
          ["fov", "brightness"]))
        [("g.txt0", "fov_scale = 9.9\nbrightness = 0\nunrelated_key = keep")]
      = (true, [("g.txt0", "fov_scale = 1.0\nbrightness = 5\nunrelated_key = keep")]) := by
  decide

theorem splitOnceEqChars_eq_none {cs : List Char} (h : '=' ∉ cs) :
    splitOnceEqChars cs = none := by
  induction cs with
  | nil => rfl
  | cons c t ih =>
    rw [List.mem_cons, not_or] at h
    rw [splitOnceEqChars, if_neg (fun hc => h.1 hc.symm), ih h.2]
    rfl

theorem splitOnceEqChars_first {a : List Char} (b : List Char) (h : '=' ∉ a) :
    splitOnceEqChars (a ++ '=' :: b) = some (a, b) := by
  induction a with
  | nil => simp [splitOnceEqChars]
  | cons c t ih =>
    rw [List.mem_cons, not_or] at h
    rw [List.cons_append, splitOnceEqChars, if_neg (fun hc => h.1 hc.symm), ih h.2]
    rfl

/-- Looking up a key right after inserting it yields the inserted value. -/
theorem lookup_insertKV {α : Type} (k : String) (v : α) :
    ∀ m : List (String × α), List.lookup k (insertKV m k v) = some v := by
  intro m
  induction m with
  | nil => simp [insertKV, List.lookup]
  | cons p rest ih =>
    by_cases hp : p.1 = k
    · simp [insertKV, hp, List.lookup]
    · have hb : (k == p.1) = false := by simp [Ne.symm hp]
      rw [insertKV, if_neg hp]
      simp [List.lookup, hb, ih]

/-- C5: the parser splits each line at the first equals sign only, trims the
two sides into key and value, silently skips lines without an equals sign,
and when a key occurs on several lines the value of the last occurrence is
the one the resulting map yields. -/
theorem c5_parse_splits_once_trims_skips_last_wins :
    (∀ (m : List (String × String)) (l : String),
        '=' ∉ l.toList → parseStep m l = m)
    ∧ (∀ (m : List (String × String)) (l : String) (a b : List Char),
        l.toList = a ++ '=' :: b → '=' ∉ a →
        parseStep m l = insertKV m (trimChars a).asString (trimChars b).asString)
    ∧ (∀ (ls : List String) (l : String) (k v : List Char),
        splitOnceEqChars l.toList = some (k, v) →
        List.lookup (trimChars k).asString (parseLinesList (ls ++ [l])) =
          some (trimChars v).asString) := by
  refine ⟨?_, ?_, ?_⟩
  · intro m l h
    rw [parseStep, splitOnceEqChars_eq_none h]
  · intro m l a b hl ha
    rw [parseStep, hl, splitOnceEqChars_first b ha]
  · intro ls l k v hsplit
    have hfold : parseLinesList (ls ++ [l]) = parseStep (parseLinesList ls) l := by
      rw [parseLinesList, List.foldl_append]
      rfl
    rw [hfold, parseStep, hsplit]
    exact lookup_insertKV _ _ _

/-- C5 witness: a commentish line without an equals sign is skipped; a line
is split at its first equals sign with both sides trimmed; for a repeated
key the value of the appended last line is the one returned. -/
theorem c5_witness :
    parseStep [] "no equals sign here" = []
    ∧ parseStep [] " a = b=c " = [("a", "b=c")]
    ∧ List.lookup "fov" (parseLinesList (["fov=1"] ++ ["fov=2"])) = some "2" := by
  refine ⟨?_, ?_, ?_⟩
  · exact c5_parse_splits_once_trims_skips_last_wins.1 [] "no equals sign here" (by decide)
  · exact c5_parse_splits_once_trims_skips_last_wins.2.1 [] " a = b=c "
      [' ', 'a', ' '] [' ', 'b', '=', 'c', ' '] (by decide) (by decide)
  · exact c5_parse_splits_once_trims_skips_last_wins.2.2 ["fov=1"] "fov=2"
      ['f', 'o', 'v'] ['2'] (by decide)

/-- C6: every entry the filter keeps has a lower-cased key containing at
least one category as a substring and is an entry of the input map; a key
whose lower-cased form contains no category is absent from the result; the
empty category list yields the empty result. -/
theorem c6_filter_substring_semantics :
    (∀ (M : List (String × String)) (C : List String) (kv : String × String),
        kv ∈ filterSettings M C →
          (∃ c ∈ C, containsLower kv.1 c = true) ∧ kv ∈ M)
    ∧ (∀ (M : List (String × String)) (C : List String) (k : String),
        (∀ c ∈ C, containsLower k c = false) →
          ∀ kv ∈ filterSettings M C, kv.1 ≠ k)
    ∧ (∀ M : List (String × String), filterSettings M [] = []) := by
  refine ⟨?_, ?_, ?_⟩
  · intro M C kv h
    rw [filterSettings, List.mem_filter] at h
    obtain ⟨hM, hp⟩ := h
    rw [keyMatchesFilters, List.any_eq_true] at hp
    exact ⟨hp, hM⟩
  · intro M C k hk kv hkv heq
    rw [filterSettings, List.mem_filter] at hkv
    obtain ⟨-, hp⟩ := hkv
    rw [keyMatchesFilters, List.any_eq_true] at hp
    obtain ⟨c, hcC, hcl⟩ := hp
    rw [heq, hk c hcC] at hcl
    exact Bool.false_ne_true hcl
  · intro M
    simp [filterSettings, keyMatchesFilters]

/-- C6 witness: the key `MouseSens` passes the filter for category `mouse`
case-insensitively, and a map whose only key matches no category filters to
a result not holding that key. -/
theorem c6_witness :
    ((∃ c ∈ ["mouse"], containsLower "MouseSens" c = true)
      ∧ ("MouseSens", "3") ∈ [("MouseSens", "3"), ("fps", "60")])
    ∧ ∀ kv ∈ filterSettings [("fps", "60")] ["mouse"], kv.1 ≠ "fps" := by
  constructor
  · exact c6_filter_substring_semantics.1 [("MouseSens", "3"), ("fps", "60")]
      ["mouse"] ("MouseSens", "3") (by decide)
  · exact c6_filter_substring_semantics.2.1 [("fps", "60")] ["mouse"] "fps"
      (by decide)

/-! ## Error handling of export, import and backup -/

/-- Inserting under a different key leaves a lookup unchanged. -/
theorem lookup_insertKV_ne {α : Type} {k k2 : String} (v : α) (h : k2 ≠ k) :
    ∀ m : List (String × α), List.lookup k (insertKV m k2 v) = List.lookup k m := by
  intro m
  have hb : (k == k2) = false := by simp [Ne.symm h]
  induction m with
  | nil => simp [insertKV, List.lookup, hb]
  | cons p rest ih =>
    by_cases hp : p.1 = k2
    · rw [insertKV, if_pos hp]
      have hb2 : (k == p.1) = false := by rw [hp]; exact hb
      simp [List.lookup, hb, hb2]
    · rw [insertKV, if_neg hp]
      cases hk : k == p.1 <;> simp [List.lookup, hk, ih]

theorem export_foldl_all_none (filters : List String) :
    ∀ (files : List (String × Option String))
      (acc : List (String × List (String × String))),
      (∀ f ∈ files, f.2 = none) →
      files.foldl (exportStep filters) acc = acc := by
  intro files
  induction files with
  | nil => intro acc _; rfl
  | cons f rest ih =>
    intro acc h
    rw [List.foldl_cons, exportStep, h f (List.mem_cons_self _ _)]
    exact ih acc (fun g hg => h g (List.mem_cons_of_mem _ hg))

theorem export_foldl_lookup_none (filters : List String) (name : String) :
    ∀ (files : List (String × Option String))
      (acc : List (String × List (String × String))),
      List.lookup name acc = none →
      (∀ f ∈ files, f.1 = name → f.2 = none) →
      List.lookup name (files.foldl (exportStep filters) acc) = none := by
  intro files
  induction files with
  | nil => intro acc hacc _; exact hacc
  | cons f rest ih =>
    intro acc hacc h
    rw [List.foldl_cons]
    cases hf2 : f.2 with
    | none =>
      rw [exportStep, hf2]
      exact ih acc hacc (fun g hg => h g (List.mem_cons_of_mem _ hg))
    | some content =>
      have hne : f.1 ≠ name := by
        intro hc
        rw [h f (List.mem_cons_self _ _) hc] at hf2
        exact Option.noConfusion hf2
      rw [exportStep, hf2]
      refine ih _ ?_ (fun g hg => h g (List.mem_cons_of_mem _ hg))
      rw [lookup_insertKV_ne _ hne, hacc]

/-- C7: export is best-effort over its input files — a file whose read
fails is skipped and contributes no section, every read failing still
yields a valid empty document, and the result of the operation is an error
exactly when the final write fails. -/
theorem c7_export_best_effort :
    (∀ (files : List (String × Option String)) (filters : List String),
        (∀ f ∈ files, f.2 = none) → export_to_json files filters = [])
    ∧ (∀ (files : List (String × Option String)) (filters : List String)
        (name : String),
        (∀ f ∈ files, f.1 = name → f.2 = none) →
          List.lookup name (export_to_json files filters) = none)
    ∧ (∀ (files : List (String × Option String)) (filters : List String)
        (w : Bool), (exportRun files filters w).isOk = w) := by
  refine ⟨?_, ?_, ?_⟩
  · intro files filters h
    exact export_foldl_all_none filters files [] h
  · intro files filters name h
    exact export_foldl_lookup_none filters name files [] rfl h
  · intro files filters w
    cases w <;> simp [exportRun, Except.isOk, Except.toBool]

/-- C7 witness: a set of files all of whose reads fail exports to the empty
document, a file whose read fails has no section, and the export succeeds
when the write does. -/
theorem c7_witness :
    export_to_json [("a.txt0", none), ("b.txt1", none)] ["fov"] = []
    ∧ List.lookup "a.txt0"
        (export_to_json [("a.txt0", none), ("b.txt1", some "fov=1")] ["fov"]) = none
    ∧ (exportRun [("a.txt0", none)] ["fov"] true).isOk = true := by
  refine ⟨?_, ?_, ?_⟩
  · exact c7_export_best_effort.1 [("a.txt0", none), ("b.txt1", none)] ["fov"]
      (by decide)
  · exact c7_export_best_effort.2.1 [("a.txt0", none), ("b.txt1", some "fov=1")]
      ["fov"] "a.txt0" (by decide)
  · exact c7_export_best_effort.2.2 [("a.txt0", none)] ["fov"] true

/-- C8: a document that does not deserialize fails the whole import with
every config file left as it was; in a valid document, a discovered file
whose basename has no section is not an error and is left untouched. -/
theorem c8_malformed_fatal_missing_section_untouched :
    (∀ fsys : List (String × String), runImport none fsys = (false, fsys))
    ∧ (∀ (d : List (String × List (String × String)))
        (fsys : List (String × String)) (name content : String),
        (name, content) ∈ fsys → List.lookup name d = none →
          (name, content) ∈ (runImport (some d) fsys).2) := by
  constructor
  · intro fsys; rfl
  · intro d fsys name content hmem hlook
    show ((name, content) : String × String) ∈ fsys.map _
    refine List.mem_map.mpr ⟨(name, content), hmem, ?_⟩
    simp [hlook]

/-- C8 witness: with a valid document containing only an unrelated section,
a discovered file keeps its exact (name, contents) entry. -/
theorem c8_witness :
    ("profile.txt0", "fov=1") ∈
      (runImport (some [("other.txt0", [("fov", "2")])])
        [("profile.txt0", "fov=1")]).2 :=
  c8_malformed_fatal_missing_section_untouched.2
    [("other.txt0", [("fov", "2")])] [("profile.txt0", "fov=1")]
    "profile.txt0" "fov=1" (by decide) (by decide)

/-- The backup fold over any starting report: the counter grows by the
number of files whose copy succeeds and the error list is extended by one
(filename, message) entry per failed copy, in file order. -/
theorem backup_foldl (copyRes : String → Option String) :
    ∀ (fsys : List (String × String)) (acc : Nat × List (String × String)),
      fsys.foldl (backupStep copyRes) acc =
        (acc.1 + (fsys.filter (fun f => copyRes f.1 = none)).length,
         acc.2 ++ fsys.filterMap (fun f => (copyRes f.1).map (fun e => (f.1, e)))) := by
  intro fsys
  induction fsys with
  | nil => intro acc; simp
  | cons f rest ih =>
    intro acc
    rw [List.foldl_cons]
    cases hc : copyRes f.1 with
    | none =>
      rw [backupStep, hc, ih]
      simp [List.filter_cons, List.filterMap_cons, hc, Prod.ext_iff]
      omega
    | some e =>
      rw [backupStep, hc, ih]
      simp [List.filter_cons, List.filterMap_cons, hc, List.append_assoc]

theorem filter_length_add_filterMap_length (copyRes : String → Option String) :
    ∀ fsys : List (String × String),
      (fsys.filter (fun f => copyRes f.1 = none)).length +
        (fsys.filterMap (fun f => (copyRes f.1).map (fun e => (f.1, e)))).length =
      fsys.length := by
  intro fsys
  induction fsys with
  | nil => simp
  | cons f rest ih =>
    cases hc : copyRes f.1 with
    | none => simp [List.filter_cons, List.filterMap_cons, hc]; omega
    | some e => simp [List.filter_cons, List.filterMap_cons, hc]; omega

/-- C9: backup attempts every input file regardless of earlier per-file
failures — the success count and the error entries together account for
every file — its report carries one (filename, error message) entry per
failed copy, and the original files are all left exactly as they were; in
the specified two-file scenario with one unreadable file the report is one
success and one error entry. -/
theorem c9_backup_best_effort_report :
    (∀ (fsys : List (String × String)) (copyRes : String → Option String),
        (backupAll fsys copyRes).2 = fsys
        ∧ (backupAll fsys copyRes).1.1 + (backupAll fsys copyRes).1.2.length
            = fsys.length
        ∧ (backupAll fsys copyRes).1.2 =
            fsys.filterMap (fun f => (copyRes f.1).map (fun e => (f.1, e))))
    ∧ (backupAll [("g.txt0", "a"), ("g.txt1", "b")]
        (fun n => if n = "g.txt0" then none else some "locked")).1
        = (1, [("g.txt1", "locked")]) := by
  constructor
  · intro fsys copyRes
    have hb : (backupAll fsys copyRes).1
        = ((fsys.filter (fun f => copyRes f.1 = none)).length,
           fsys.filterMap (fun f => (copyRes f.1).map (fun e => (f.1, e)))) := by
      show fsys.foldl (backupStep copyRes) (0, []) = _
      rw [backup_foldl copyRes fsys (0, [])]
      simp
    refine ⟨rfl, ?_, ?_⟩
    · rw [hb]
      simpa using filter_length_add_filterMap_length copyRes fsys
    · rw [hb]
  · decide

/-! ## Line endings of the rewritten file -/

theorem linesAux_append_no_nl :
    ∀ (l cur t : List Char), '\n' ∉ l →
      linesAux cur (l ++ t) = linesAux (l.reverse ++ cur) t := by
  intro l
  induction l with
  | nil => intro cur t _; rfl
  | cons c l2 ih =>
    intro cur t h
    rw [List.mem_cons, not_or] at h
    rw [List.cons_append, linesAux]
    rw [if_neg (fun hc => h.1 hc.symm)]
    rw [ih (c :: cur) t h.2]
    simp [List.append_assoc]

theorem stripCrL_concat_cr (l : List Char) : stripCrL (l ++ ['\r']) = l := by
  rw [stripCrL, if_pos (List.getLast?_concat l), List.dropLast_concat]

theorem linesAux_crlfJoin :
    ∀ ls : List (List Char), (∀ l ∈ ls, '\n' ∉ l) →
      linesAux [] (crlfJoin ls) = ls ++ [[]] := by
  intro ls
  induction ls with
  | nil => intro _; rfl
  | cons l rest ih =>
    intro h
    have hjoin : crlfJoin (l :: rest) = l ++ ('\r' :: '\n' :: crlfJoin rest) := by
      simp [crlfJoin]
    rw [hjoin, linesAux_append_no_nl l [] _ (h l (List.mem_cons_self _ _))]
    rw [List.append_nil, linesAux, if_neg (by decide), linesAux, if_pos rfl]
    rw [ih (fun l2 hl2 => h l2 (List.mem_cons_of_mem _ hl2))]
    have hrev : ('\r' :: l.reverse).reverse = l ++ ['\r'] := by
      simp
    rw [hrev, stripCrL_concat_cr]
    rfl

/-- C10: whenever the import rewrites a config file, the new contents are
the merged line texts joined by single LF separators with no trailing
newline, and the line split strips the CR of every CRLF ending — so a
CRLF-terminated file comes back with LF endings only and without its final
newline, changing the bytes even of lines the merge never targeted. -/
theorem c10_rewrite_joins_with_lf_and_strips_cr :
    (∀ (sec : List (String × String)) (content : String), sec ≠ [] →
        fileImport sec content =
          String.intercalate "\n" (mergeKeys sec (rustLines content)))
    ∧ (∀ ls : List (List Char), (∀ l ∈ ls, '\n' ∉ l) →
        rustLinesChars (crlfJoin ls) = ls)
    ∧ fileImport [("a", "1")] "a = 1\r\nb = 2\r\n" = "a = 1\nb = 2" := by
  refine ⟨?_, ?_, by decide⟩
  · intro sec content hne
    have hsec : sec.isEmpty = false := by
      cases sec with
      | nil => exact absurd rfl hne
      | cons kv rest => rfl
    rw [fileImport_eq, hsec]
    rfl
  · intro ls h
    rw [rustLinesChars, linesAux_crlfJoin ls h, dropFinalEmpty]
    rw [if_pos (List.getLast?_concat ls), List.dropLast_concat]

/-- C10 witness: the rewrite-shape equation at a concrete nonempty section,
and the CRLF split at a concrete two-line file. -/
theorem c10_witness :
    fileImport [("k", "v")] "x = 1\n"
        = String.intercalate "\n" (mergeKeys [("k", "v")] (rustLines "x = 1\n"))
    ∧ rustLinesChars (crlfJoin [['a'], ['b']]) = [['a'], ['b']] :=
  ⟨c10_rewrite_joins_with_lf_and_strips_cr.1 [("k", "v")] "x = 1\n" (by decide),
   c10_rewrite_joins_with_lf_and_strips_cr.2.1 [['a'], ['b']] (by decide)⟩

/-! ## Idempotence of the whole import, write and re-read included -/

/-- The characters a LF separator contributes before each further line. -/
def tailJoinNl : List (List Char) → List Char
  | [] => []
  | l :: rest => '\n' :: (l ++ tailJoinNl rest)

/-- Lines joined by single LF separators, at the character level. -/
def joinNl : List (List Char) → List Char
  | [] => []
  | l :: rest => l ++ tailJoinNl rest

theorem intercalate_go_toList :
    ∀ (as : List String) (acc : String),
      (String.intercalate.go acc "\n" as).toList
        = acc.toList ++ tailJoinNl (as.map String.toList) := by
  intro as
  induction as with
  | nil => intro acc; simp [String.intercalate.go, tailJoinNl]
  | cons a as2 ih =>
    intro acc
    have hgo : String.intercalate.go acc "\n" (a :: as2)
        = String.intercalate.go (acc ++ "\n" ++ a) "\n" as2 := rfl
    have hnl : ("\n" : String).toList = ['\n'] := rfl
    rw [hgo, ih]
    simp [tailJoinNl, hnl]

/-- The character list of an LF-intercalated line list. -/
theorem intercalate_toList (ls : List String) :
    (String.intercalate "\n" ls).toList = joinNl (ls.map String.toList) := by
  cases ls with
  | nil => rfl
  | cons a as =>
    have hgo : String.intercalate "\n" (a :: as) = String.intercalate.go a "\n" as := rfl
    rw [hgo, intercalate_go_toList as a]
    simp [joinNl]

/-- Splitting an LF-join back into lines recovers them, provided no line
holds an LF, no line but the last ends in a CR, and the list is nonempty. -/
theorem linesAux_joinNl :
    ∀ lcs : List (List Char), lcs ≠ [] →
      (∀ l ∈ lcs, '\n' ∉ l) →
      (∀ l ∈ lcs.dropLast, l.getLast? ≠ some '\r') →
      linesAux [] (joinNl lcs) = lcs := by
  intro lcs
  induction lcs with
  | nil => intro h _ _; exact absurd rfl h
  | cons l rest ih =>
    intro _ ha hb
    cases rest with
    | nil =>
      have hj : joinNl [l] = l ++ [] := by rw [joinNl, tailJoinNl]
      rw [hj, linesAux_append_no_nl l [] [] (ha l (List.mem_cons_self _ _))]
      simp [linesAux]
    | cons l2 rest2 =>
      have hj : joinNl (l :: l2 :: rest2) = l ++ ('\n' :: joinNl (l2 :: rest2)) := by
        rw [joinNl, tailJoinNl, joinNl]
      have hdl : (l :: l2 :: rest2).dropLast = l :: (l2 :: rest2).dropLast := rfl
      rw [hj, linesAux_append_no_nl l [] _ (ha l (List.mem_cons_self _ _))]
      rw [List.append_nil, linesAux, if_pos rfl, List.reverse_reverse]
      have hstrip : stripCrL l = l := by
        rw [stripCrL, if_neg (hb l (by rw [hdl]; exact List.mem_cons_self _ _))]
      have ha2 : ∀ x ∈ l2 :: rest2, '\n' ∉ x :=
        fun x hx => ha x (List.mem_cons_of_mem _ hx)
      have hb2 : ∀ x ∈ (l2 :: rest2).dropLast, x.getLast? ≠ some '\r' :=
        fun x hx => hb x (by rw [hdl]; exact List.mem_cons_of_mem _ hx)
      rw [hstrip, ih (by simp) ha2 hb2]

/-- The full split of an LF-join, the trailing-empty-segment rule included:
with a nonempty last line the split is a left inverse of the join. -/
theorem rustLinesChars_joinNl (lcs : List (List Char))
    (ha : ∀ l ∈ lcs, '\n' ∉ l)
    (hb : ∀ l ∈ lcs.dropLast, l.getLast? ≠ some '\r')
    (hc : lcs.getLast? ≠ some []) :
    rustLinesChars (joinNl lcs) = lcs := by
  cases lcs with
  | nil => rfl
  | cons l rest =>
    rw [rustLinesChars, linesAux_joinNl (l :: rest) (by simp) ha hb,
      dropFinalEmpty, if_neg hc]

/-- The bytes the import writes (lines joined by single LFs) split back into
exactly the written lines, under the same three conditions at string
level. -/
theorem rustLines_intercalate (ls : List String)
    (ha : ∀ l ∈ ls, '\n' ∉ l.toList)
    (hb : ∀ l ∈ ls.dropLast, l.toList.getLast? ≠ some '\r')
    (hc : ls.getLast? ≠ some "") :
    rustLines (String.intercalate "\n" ls) = ls := by
  have ha2 : ∀ lc ∈ ls.map String.toList, '\n' ∉ lc := by
    intro lc hlc
    obtain ⟨l, hl, rfl⟩ := List.mem_map.mp hlc
    exact ha l hl
  have hb2 : ∀ lc ∈ (ls.map String.toList).dropLast, lc.getLast? ≠ some '\r' := by
    intro lc hlc
    have hm : (ls.map String.toList).dropLast = ls.dropLast.map String.toList := by
      simp
    rw [hm] at hlc
    obtain ⟨l, hl, rfl⟩ := List.mem_map.mp hlc
    exact hb l hl
  have hc2 : (ls.map String.toList).getLast? ≠ some [] := by
    intro hcontra
    have hg : (ls.map String.toList).getLast? = ls.getLast?.map String.toList := by
      simp
    rw [hg] at hcontra
    obtain ⟨l, hl, hl2⟩ := Option.map_eq_some'.mp hcontra
    apply hc
    rw [hl]
    have hl3 : l = "" := congrArg List.asString hl2
    rw [hl3]
  rw [rustLines, intercalate_toList ls,
    rustLinesChars_joinNl (ls.map String.toList) ha2 hb2 hc2, List.map_map]
  have hid : (List.asString ∘ String.toList) = (id : String → String) :=
    funext fun l => rfl
  rw [hid, List.map_id]

/-- C3 amended: importing the same document twice produces a file identical
to importing it once, provided every section key matches its own canonical
line, no section key prefix-matches the canonical line of another section
entry, and the merged line sequence survives the write/re-read round trip —
no merged line contains an LF, no merged line but the last ends in a CR,
and the last merged line is nonempty. Without the collision proviso a key
that is a prefix of the canonical line of another entry clobbers it on the
first pass and the second pass re-appends it; without the round-trip
proviso even a collision-free import is not idempotent, because the
rewrite joins lines with single LFs and the re-read then drops a final
empty line (a file ending in two newlines loses one blank line per
import). -/
theorem c3_amended_import_idempotent_when_lines_stable
    (sec : List (String × String)) (content : String)
    (H1 : ∀ kv ∈ sec, matchLine kv.1 (canonLine kv.1 kv.2) = true)
    (H2 : ∀ kv ∈ sec, ∀ kv2 ∈ sec, kv ≠ kv2 →
        matchLine kv.1 (canonLine kv2.1 kv2.2) = false)
    (H3 : ∀ l ∈ mergeKeys sec (rustLines content), '\n' ∉ l.toList)
    (H4 : ∀ l ∈ (mergeKeys sec (rustLines content)).dropLast,
        l.toList.getLast? ≠ some '\r')
    (H5 : (mergeKeys sec (rustLines content)).getLast? ≠ some "") :
    fileImport sec (fileImport sec content) = fileImport sec content := by
  cases sec with
  | nil =>
    have h0 : fileImport ([] : List (String × String)) content = content := by
      rw [fileImport_eq]
      rfl
    rw [h0, h0]
  | cons kv0 rest0 =>
    have h1 : fileImport (kv0 :: rest0) content
        = String.intercalate "\n" (mergeKeys (kv0 :: rest0) (rustLines content)) := by
      rw [fileImport_eq]
      simp
    have hrt : rustLines (String.intercalate "\n"
          (mergeKeys (kv0 :: rest0) (rustLines content)))
        = mergeKeys (kv0 :: rest0) (rustLines content) :=
      rustLines_intercalate _ H3 H4 H5
    have hmg : mergeKeys (kv0 :: rest0)
          (mergeKeys (kv0 :: rest0) (rustLines content))
        = mergeKeys (kv0 :: rest0) (rustLines content) :=
      mergeKeys_of_all_firstMatchIs _ _
        (firstMatchIs_after_merge _ (rustLines content) H1 H2)
    rw [h1, fileImport_eq, hrt, hmg]
    simp

/-- C3 amended, witness: a concrete collision-free section and file for
which the provisos all hold and the second import reproduces both the file
contents and the first import byte for byte. -/
theorem c3_amended_witness :
    fileImport [("fov", "1"), ("brightness", "5")]
        (fileImport [("fov", "1"), ("brightness", "5")] "brightness = 0\n")
      = fileImport [("fov", "1"), ("brightness", "5")] "brightness = 0\n" :=
  c3_amended_import_idempotent_when_lines_stable
    [("fov", "1"), ("brightness", "5")] "brightness = 0\n"
    (by decide) (by decide) (by decide) (by decide) (by decide)
